import Mathlib

/-!
Verification of the retrieval core of the `md-mcp` repository
(`md_mcp/chunking.py`, `md_mcp/semantic.py`, and the strategy dispatch of
`md_mcp/server.py`) against its natural-language specification.

Text is modelled as `List Char`.  Python strings coming from documents and
queries are ASCII in all examples; `lower`/`isSpace` model `str.lower()` /
`str.strip()` and the regex class `\s` on ASCII.  Scores (Python floats) are
modelled as exact rationals `ℚ`: every claim under consideration is about the
scoring formulas and orderings, not about IEEE rounding.
-/

namespace MdMcp

/-- Text is modelled as a list of characters. -/
abbrev Text := List Char

/-- Convert a Lean string literal to the `Text` model. -/
def str (s : String) : Text := s.toList

/-- Python whitespace (the characters stripped by `str.strip()` and matched
by `\s`, restricted to ASCII). -/
def isSpace (c : Char) : Bool :=
  c = ' ' || c = '\t' || c = '\n' || c = '\r' || c = '\x0b' || c = '\x0c'

/-- `s.strip()`: drop whitespace from both ends. -/
def trim (s : Text) : Text :=
  ((s.dropWhile isSpace).reverse.dropWhile isSpace).reverse

/-- ASCII lower-casing of one character (models `str.lower()` on the ASCII
texts under consideration). -/
def toLowerChar (c : Char) : Char :=
  if 'A' ≤ c ∧ c ≤ 'Z' then Char.ofNat (c.toNat + 32) else c

/-- `s.lower()`. -/
def lower (s : Text) : Text := s.map toLowerChar

/-- `content.split('\n')`. -/
def splitLines : Text → List Text
  | [] => [[]]
  | '\n' :: rest => [] :: splitLines rest
  | c :: rest =>
    match splitLines rest with
    | [] => [[c]]
    | l :: ls => (c :: l) :: ls

/-- `content.split('\n\n')` (non-overlapping, left to right, as Python's
`str.split` with a two-character separator). -/
def splitParas : Text → List Text
  | [] => [[]]
  | '\n' :: '\n' :: rest => [] :: splitParas rest
  | c :: rest =>
    match splitParas rest with
    | [] => [[c]]
    | l :: ls => (c :: l) :: ls

/-- `sep.join(parts)`. -/
def joinSep (sep : Text) : List Text → Text
  | [] => []
  | [x] => x
  | x :: xs => x ++ sep ++ joinSep sep xs

/-- `needle in haystack` (Python substring test). -/
def hasSubstr (haystack needle : Text) : Bool :=
  match haystack with
  | [] => needle.isEmpty
  | _ :: t => needle.isPrefixOf haystack || hasSubstr t needle

/-- Auxiliary for `countSub`: counts non-overlapping occurrences of the
non-empty needle `n0 :: ns`, scanning left to right. -/
def countSubAux (n0 : Char) (ns : Text) : Text → Nat
  | [] => 0
  | c :: t =>
    if (n0 :: ns).isPrefixOf (c :: t) then 1 + countSubAux n0 ns (t.drop ns.length)
    else countSubAux n0 ns t
termination_by s => s.length
decreasing_by
  · simp only [List.length_drop, List.length_cons]
    omega
  · simp only [List.length_cons]
    omega

/-- `haystack.count(needle)`: non-overlapping occurrence count; Python
returns `len(haystack) + 1` for an empty needle. -/
def countSub (haystack needle : Text) : Nat :=
  match needle with
  | [] => haystack.length + 1
  | n0 :: ns => countSubAux n0 ns haystack

/-- Auxiliary for `wordsOf`: accumulates the current word (reversed). -/
def wordsAux : Text → Text → List Text
  | [], acc => if acc.isEmpty then [] else [acc.reverse]
  | c :: t, acc =>
    if isSpace c then
      if acc.isEmpty then wordsAux t [] else acc.reverse :: wordsAux t []
    else wordsAux t (c :: acc)

/-- `s.split()` with no argument: split on whitespace runs, dropping empty
words. -/
def wordsOf (s : Text) : List Text := wordsAux s []

/-! ## Data model (`md_mcp/chunking.py`) -/

/-- `Chunk` dataclass from `chunking.py`. -/
structure Chunk where
  content : Text
  header_path : Text
  start_char : Nat
  end_char : Nat
  file_path : Text
deriving DecidableEq, Repr

/-- Default value used with `List.getD` at in-bounds indices. -/
def defaultChunk : Chunk := ⟨[], [], 0, 0, []⟩

/-- `SearchSnippet` dataclass from `chunking.py`; `match_score` (a Python
float) is modelled as an exact rational. -/
structure SearchSnippet where
  file_path : Text
  header_path : Text
  snippet : Text
  full_chunk : Text
  match_score : ℚ
  start_char : Nat
  end_char : Nat
deriving DecidableEq, Repr

/-! ## `MarkdownChunker._split_by_headers` -/

/-- Matches `re.match(r'^(#{1,6})\s+(.+)$', line.strip())` from
`_split_by_headers`: on success returns the header level (number of leading
markers, 1–6) and `match.group(2).strip()`.  With 1–6 leading markers the
regex requires at least one whitespace character after them and a non-empty
remainder; seven or more markers never match (backtracking positions the
mandatory whitespace on a marker character). -/
def parseHeader (line : Text) : Option (Nat × Text) :=
  let s := trim line
  let hashes := s.takeWhile (· = '#')
  let rest := s.drop hashes.length
  if 1 ≤ hashes.length ∧ hashes.length ≤ 6 then
    match rest with
    | [] => none
    | c :: _ =>
      if isSpace c then
        let txt := rest.dropWhile isSpace
        if txt.isEmpty then none else some (hashes.length, trim txt)
      else none
  else none

/-- Entry of the `header_stack` list in `_split_by_headers`. -/
structure HeaderEntry where
  level : Nat
  text : Text
deriving DecidableEq, Repr

/-- The `current_section` dictionary of `_split_by_headers` (`end` is a Lean
keyword, embedded as `stop`). -/
structure MSection where
  header_path : Text
  content : Text
  start : Nat
  stop : Nat
  level : Nat
deriving DecidableEq, Repr

/-- Loop state of `_split_by_headers`.  The Python `header_stack` appends and
pops at the tail; it is modelled head-first (head = innermost open header), so
Python's stack order is `stack.reverse`. -/
structure SplitState where
  current : MSection
  stack : List HeaderEntry
  offset : Nat
  sections : List MSection
deriving Repr

/-- `' > '`, the header-path separator. -/
def pathSep : Text := str " > "

/-- One iteration of the `for line in lines` loop of `_split_by_headers`. -/
def splitStep (st : SplitState) (line : Text) : SplitState :=
  let lineLength := line.length + 1
  match parseHeader line with
  | some lv =>
    let sections₁ :=
      if (trim st.current.content).isEmpty then st.sections
      else st.sections ++ [{ st.current with stop := st.offset }]
    let stack₁ := st.stack.dropWhile (fun h => lv.1 ≤ h.level)
    let stack₂ := ⟨lv.1, lv.2⟩ :: stack₁
    let path := joinSep pathSep (stack₂.reverse.map HeaderEntry.text)
    { current := { header_path := path, content := line ++ ['\n'],
                   start := st.offset, stop := st.offset, level := lv.1 },
      stack := stack₂,
      offset := st.offset + lineLength,
      sections := sections₁ }
  | none =>
    { st with
      current := { st.current with content := st.current.content ++ line ++ ['\n'] },
      offset := st.offset + lineLength }

/-- Initial state of `_split_by_headers`. -/
def splitInit : SplitState :=
  { current := { header_path := str "(root)", content := [], start := 0, stop := 0, level := 0 },
    stack := [], offset := 0, sections := [] }

/-- `MarkdownChunker._split_by_headers`. -/
def split_by_headers (content : Text) : List MSection :=
  let st := (splitLines content).foldl splitStep splitInit
  if (trim st.current.content).isEmpty then st.sections
  else st.sections ++ [{ st.current with stop := st.offset }]

/-! ## `MarkdownChunker._chunk_by_paragraphs` -/

/-- Loop state of `_chunk_by_paragraphs`. -/
structure ParaState where
  chunks : List Chunk
  current_chunk : Text
  chunk_start : Nat
  char_offset : Nat
deriving Repr

/-- One iteration of the `for para in paragraphs` loop of
`_chunk_by_paragraphs`. -/
def paraStep (maxChunkSize : Nat) (header_path file_path : Text)
    (st : ParaState) (para : Text) : ParaState :=
  let pwn := para ++ ['\n', '\n']
  if maxChunkSize < st.current_chunk.length + pwn.length then
    let chunks₁ :=
      if (trim st.current_chunk).isEmpty then st.chunks
      else st.chunks ++
        [⟨trim st.current_chunk, header_path, st.chunk_start, st.char_offset, file_path⟩]
    { chunks := chunks₁, current_chunk := pwn,
      chunk_start := st.char_offset, char_offset := st.char_offset + pwn.length }
  else
    { st with current_chunk := st.current_chunk ++ pwn,
              char_offset := st.char_offset + pwn.length }

/-- `MarkdownChunker._chunk_by_paragraphs`. -/
def chunk_by_paragraphs (maxChunkSize : Nat) (content header_path : Text)
    (start_offset : Nat) (file_path : Text) : List Chunk :=
  let st := (splitParas content).foldl (paraStep maxChunkSize header_path file_path)
    ⟨[], [], start_offset, start_offset⟩
  if (trim st.current_chunk).isEmpty then st.chunks
  else st.chunks ++
    [⟨trim st.current_chunk, header_path, st.chunk_start, st.char_offset, file_path⟩]

/-- `MarkdownChunker.chunk_markdown` (the `max_chunk_size` constructor
argument is passed explicitly). -/
def chunk_markdown (maxChunkSize : Nat) (content file_path : Text) : List Chunk :=
  (split_by_headers content).foldl
    (fun chunks s =>
      if s.content.length ≤ maxChunkSize then
        chunks ++ [⟨s.content, s.header_path, s.start, s.stop, file_path⟩]
      else
        chunks ++ chunk_by_paragraphs maxChunkSize s.content s.header_path s.start file_path)
    []

/-! ## `MarkdownChunker.calculate_relevance` -/

/-- `MarkdownChunker.calculate_relevance`, transcribing the imperative score
accumulation (`2.0`, `1.0`, `0.1`, `0.5` as exact rationals). -/
def calculate_relevance (chunk : Chunk) (query : Text) : ℚ :=
  let query_lower := lower query
  let header_lower := lower chunk.header_path
  let score₀ : ℚ := 0
  let score₁ : ℚ :=
    if hasSubstr header_lower query_lower then score₀ + 2
    else (wordsOf query_lower).foldl
      (fun s word => if 3 < word.length ∧ hasSubstr header_lower word then s + 1 else s)
      score₀
  let content_lower := lower chunk.content
  let occurrences := countSub content_lower query_lower
  let score₂ := score₁ + occurrences * (1 / 10 : ℚ)
  if chunk.start_char < 1000 then score₂ + 1 / 2 else score₂

/-- The scoring formula exactly as claim C4 words it: 2.0 for a full
case-insensitive query match in the header path, else 1.0 per query word
longer than 3 characters found there; plus 0.1 per occurrence of the query in
the content; plus 0.5 when `start_char < 1000`.  Stated independently of
`calculate_relevance` to be compared against it. -/
def relevanceSpecFormula (chunk : Chunk) (query : Text) : ℚ :=
  (if hasSubstr (lower chunk.header_path) (lower query) then (2 : ℚ)
   else ((wordsOf (lower query)).filter
      (fun word => decide (3 < word.length) && hasSubstr (lower chunk.header_path) word)).length)
  + (countSub (lower chunk.content) (lower query)) * (1 / 10 : ℚ)
  + (if chunk.start_char < 1000 then (1 / 2 : ℚ) else 0)

/-! ## `MarkdownChunker.extract_snippet` -/

/-- `MarkdownChunker.extract_snippet` (with its `context_lines` argument;
callers in this file use the default `2`).  `max(0, i - c)` is Python's guard
against a negative start index; truncated `Nat` subtraction models it. -/
def extract_snippet (chunk : Chunk) (query : Text) (context_lines : Nat) : Text :=
  let query_lower := lower query
  let lines := splitLines chunk.content
  match lines.findIdx? (fun line => hasSubstr (lower line) query_lower) with
  | none => joinSep ['\n'] (lines.take (min 5 lines.length)) ++ str "..."
  | some match_line_idx =>
    let start_idx := match_line_idx - context_lines
    let end_idx := min lines.length (match_line_idx + context_lines + 1)
    let snippet₁ := (lines.take end_idx).drop start_idx
    let snippet₂ := if 0 < start_idx then str "..." :: snippet₁ else snippet₁
    let snippet₃ := if end_idx < lines.length then snippet₂ ++ [str "..."] else snippet₂
    joinSep ['\n'] snippet₃

/-! ## Stable descending sort

`results.sort(key=..., reverse=True)`: Python's sort is stable; a stable
descending insertion sort models it (an earlier element with an equal key
stays in front). -/

/-- Insert into a descending-sorted list, after existing elements with an
equal key. -/
def insertDescBy (key : α → ℚ) (r : α) : List α → List α
  | [] => [r]
  | x :: xs => if key x ≤ key r then r :: x :: xs else x :: insertDescBy key r xs

/-- Stable sort, descending by `key`. -/
def sortDescBy (key : α → ℚ) : List α → List α
  | [] => []
  | x :: xs => insertDescBy key x (sortDescBy key xs)

/-! ## `MarkdownChunker.search_chunks` (keyword strategy) -/

/-- Build the `SearchSnippet` for one matching chunk in `search_chunks`. -/
def mkKeywordSnippet (chunk : Chunk) (query : Text) : SearchSnippet :=
  ⟨chunk.file_path, chunk.header_path, extract_snippet chunk query 2,
   chunk.content, calculate_relevance chunk query, chunk.start_char, chunk.end_char⟩

/-- `MarkdownChunker.search_chunks`: keep the chunks whose lower-cased content
contains the lower-cased query, score them, sort descending by score, return
the first `max_results`. -/
def search_chunks (chunks : List Chunk) (query : Text) (max_results : Nat) :
    List SearchSnippet :=
  let query_lower := lower query
  let results := (chunks.filter (fun chunk => hasSubstr (lower chunk.content) query_lower)).map
    (fun chunk => mkKeywordSnippet chunk query)
  (sortDescBy SearchSnippet.match_score results).take max_results

/-! ## `SemanticIndex` (`md_mcp/semantic.py`)

The embedding model (`SentenceTransformer.encode`) is external ML inference;
it is abstracted as a parameter `encode : Text → List ℚ`.  L2-normalization
(`arr / norm(arr)` when the Euclidean norm exceeds `1e-10`, else unchanged)
involves a floating-point square root and is abstracted as a parameter
`normalizeVec : List ℚ → List ℚ`; no claim under consideration depends on the
numeric values either function produces.  Likewise `_content_hash` (a SHA-256
prefix) is a parameter `hashFn : Text → Text`.  Disk I/O is passed in
explicitly: the loaded cache as a value, the outcome of `_save_cache` as an
`Except` (the Python `_save_cache` has no exception handler, so a raised
`OSError` is modelled by the `.error` case flowing into the result). -/

/-- In-memory state of a `SemanticIndex`: the `SEMANTIC_AVAILABLE` capability
flag consulted by `is_available`/`_get_model`, and `_embeddings`
(content-hash / vector pairs, parallel to the indexed chunk list).  A freshly
constructed index has `embeddings = []`. -/
structure SemanticIndexState where
  available : Bool
  embeddings : List (Text × List ℚ)
deriving DecidableEq, Repr

/-- `np.dot` of two equal-length vectors (zipping models numpy's
shape agreement). -/
def dotQ (a b : List ℚ) : ℚ := ((a.zip b).map (fun p => p.1 * p.2)).sum

/-- `d.get(k)` / `k in d` on an insertion-ordered dictionary modelled as an
association list. -/
def lookupAssoc [DecidableEq κ] (m : List (κ × ν)) (k : κ) : Option ν :=
  (m.find? (fun p => decide (p.1 = k))).map Prod.snd

/-- `d[k] = v` on an insertion-ordered dictionary: overwrite an existing key
in place, append a new one. -/
def setAssoc [DecidableEq κ] : List (κ × ν) → κ → ν → List (κ × ν)
  | [], k, v => [(k, v)]
  | (k₀, v₀) :: rest, k, v =>
    if k₀ = k then (k, v) :: rest else (k₀, v₀) :: setAssoc rest k v

/-- `enumerate(xs, i)`. -/
def enumIdx : Nat → List α → List (Nat × α)
  | _, [] => []
  | i, x :: xs => (i, x) :: enumIdx (i + 1) xs

/-- `SemanticIndex.search`.  The guard on an unbuilt index or empty chunk
list returns `[]` before `_get_model()` is reached; `_get_model` raises
(`RuntimeError`) when the backend is unavailable, modelled by the `.error`
case.  The scoring loop breaks at `i >= len(chunks)`, i.e. it pairs the i-th
embedding with the i-th chunk up to the shorter list, which `List.zip`
models; raw cosine similarity is remapped by `(s + 1) / 2` and clamped to
`[0, 1]`. -/
def semSearch (encode : Text → List ℚ) (normalizeVec : List ℚ → List ℚ)
    (st : SemanticIndexState) (query : Text) (chunks : List Chunk)
    (top_k : Nat) : Except Text (List (Chunk × ℚ)) :=
  if st.embeddings.isEmpty || chunks.isEmpty then .ok []
  else if st.available = false then
    .error (str "sentence-transformers is not installed")
  else
    let q_arr := normalizeVec (encode query)
    let results := (chunks.zip st.embeddings).map
      (fun p => (p.1, max 0 (min 1 ((dotQ q_arr p.2.2 + 1) / 2))))
    .ok ((sortDescBy Prod.snd results).take top_k)

/-- `SemanticIndex.build_index`, returning the final `self._embeddings` state
together with the outcome.  The empty-chunk guard returns `0` before any I/O;
otherwise missing hashes are embedded, the cache is updated, and
`_save_cache` runs last — since `_save_cache` contains no `try/except`, a
write failure (`saveResult = .error e`) propagates as the result while the
in-memory `_embeddings` assignment has already happened. -/
def build_index (hashFn : Text → Text) (encode : Text → List ℚ)
    (normalizeVec : List ℚ → List ℚ) (cache₀ : List (Text × List ℚ))
    (saveResult : Except Text Unit) (chunks : List Chunk) :
    List (Text × List ℚ) × Except Text Nat :=
  if chunks.isEmpty then ([], .ok 0)
  else
    let hashes := chunks.map (fun c => hashFn c.content)
    let missing_indices := ((enumIdx 0 hashes).filter
      (fun p => (lookupAssoc cache₀ p.2).isNone)).map Prod.fst
    let cache₁ := missing_indices.foldl
      (fun c i => setAssoc c (hashes.getD i [])
        (normalizeVec (encode ((chunks.getD i defaultChunk).content))))
      cache₀
    let new_count := missing_indices.length
    let embeddings := hashes.map (fun h => (h, (lookupAssoc cache₁ h).getD []))
    match saveResult with
    | .ok _ => (embeddings, .ok new_count)
    | .error e => (embeddings, .error e)

/-! ## `MarkdownChunker.search_hybrid` -/

/-- The `max_kw` accumulation loop of `search_hybrid`. -/
def maxKw (chunks : List Chunk) (query : Text) : ℚ :=
  (chunks.map (fun c => calculate_relevance c query)).foldl
    (fun m s => if m < s then s else m) 0

/-- Keyword scores of `search_hybrid`, normalized by `max_kw` when it is
positive.  The Python dictionary is keyed by the enumeration index, so it is
modelled positionally. -/
def kwNormScores (chunks : List Chunk) (query : Text) : List ℚ :=
  let raw := chunks.map (fun c => calculate_relevance c query)
  let mx := maxKw chunks query
  if 0 < mx then raw.map (fun v => v / mx) else raw

/-- The `semantic_scores` dictionary of `search_hybrid`: empty unless a
semantic index is supplied, available, and has a non-empty built index;
otherwise each semantic result is matched back to the first position holding
that chunk (the Python loop matches by object identity `c is chunk`; the
chunks handed to `SemanticIndex.search` are the same objects, modelled as the
first value-equal position). -/
def semScoreMap (encode : Text → List ℚ) (normalizeVec : List ℚ → List ℚ)
    (semantic_index : Option SemanticIndexState) (chunks : List Chunk)
    (query : Text) : List (Nat × ℚ) :=
  match semantic_index with
  | none => []
  | some st =>
    if st.available && !st.embeddings.isEmpty then
      let sem_results :=
        match semSearch encode normalizeVec st query chunks chunks.length with
        | .ok rs => rs
        | .error _ => []
      sem_results.foldl
        (fun m p =>
          match chunks.findIdx? (fun c => decide (c = p.1)) with
          | some i => setAssoc m i p.2
          | none => m)
        []
    else []

/-- Combined score of the chunk at position `i` in the merge loop of
`search_hybrid`: weighted combination when semantic scores exist, otherwise
the keyword score alone (`keyword_scores.get(i, 0.0)` /
`semantic_scores.get(i, 0.0)`). -/
def hybridCombined (kw_normalized : List ℚ) (semantic_scores : List (Nat × ℚ))
    (vector_weight text_weight : ℚ) (i : Nat) : ℚ :=
  let kw_score := kw_normalized.getD i 0
  let sem_score := (lookupAssoc semantic_scores i).getD 0
  if semantic_scores.isEmpty then kw_score
  else vector_weight * sem_score + text_weight * kw_score

/-- Build the `SearchSnippet` appended by the merge loop of `search_hybrid`. -/
def mkHybridSnippet (chunk : Chunk) (query : Text) (combined : ℚ) : SearchSnippet :=
  ⟨chunk.file_path, chunk.header_path, extract_snippet chunk query 2,
   chunk.content, combined, chunk.start_char, chunk.end_char⟩

/-- The `for i, chunk in enumerate(chunks)` merge loop of `search_hybrid`:
include a chunk when its combined score exceeds `0.01` or the lower-cased
query occurs in its lower-cased content. -/
def hybridLoop (query : Text) (kw_normalized : List ℚ)
    (semantic_scores : List (Nat × ℚ)) (vector_weight text_weight : ℚ) :
    Nat → List Chunk → List SearchSnippet
  | _, [] => []
  | i, chunk :: rest =>
    (if (1 / 100 : ℚ) < hybridCombined kw_normalized semantic_scores vector_weight text_weight i
        || hasSubstr (lower chunk.content) (lower query) then
      [mkHybridSnippet chunk query
        (hybridCombined kw_normalized semantic_scores vector_weight text_weight i)]
     else [])
    ++ hybridLoop query kw_normalized semantic_scores vector_weight text_weight (i + 1) rest

/-- The result list of `search_hybrid` before sorting and truncation. -/
def hybrid_candidates (encode : Text → List ℚ) (normalizeVec : List ℚ → List ℚ)
    (chunks : List Chunk) (query : Text)
    (semantic_index : Option SemanticIndexState)
    (vector_weight text_weight : ℚ) : List SearchSnippet :=
  hybridLoop query (kwNormScores chunks query)
    (semScoreMap encode normalizeVec semantic_index chunks query)
    vector_weight text_weight 0 chunks

/-- `MarkdownChunker.search_hybrid`: candidates, sorted descending by
combined score, truncated to `max_results`. -/
def search_hybrid (encode : Text → List ℚ) (normalizeVec : List ℚ → List ℚ)
    (chunks : List Chunk) (query : Text)
    (semantic_index : Option SemanticIndexState) (max_results : Nat)
    (vector_weight text_weight : ℚ) : List SearchSnippet :=
  (sortDescBy SearchSnippet.match_score
    (hybrid_candidates encode normalizeVec chunks query semantic_index
      vector_weight text_weight)).take max_results

/-! ## `search_markdown` strategy dispatch (`md_mcp/server.py`) -/

/-- Which branch of the `search_markdown` tool returns, carrying the data the
branch formats (the human-readable message strings themselves are
abstracted away). -/
inductive SearchMarkdownOutcome where
  | invalid_strategy (strategy : Text)
  | not_implemented (strategy : Text)
  | no_results (query : Text)
  | results (snippets : List SearchSnippet)
deriving DecidableEq, Repr

/-- `valid_strategies = ["keyword", "semantic", "hybrid"]`. -/
def valid_strategies : List Text := [str "keyword", str "semantic", str "hybrid"]

/-- The dispatch logic of the `search_markdown` tool: reject strategies
outside `valid_strategies`; answer `"semantic"` and `"hybrid"` with the fixed
"not yet implemented" notice (the code consults no availability flag there);
otherwise run the keyword search over all chunks of all scanned files
(`all_chunks`, collected by the out-of-scope scanner) and report either the
snippets or "no results". -/
def search_markdown_logic (all_chunks : List Chunk) (query : Text)
    (max_results : Nat) (strategy : Text) : SearchMarkdownOutcome :=
  if strategy ∉ valid_strategies then .invalid_strategy strategy
  else if strategy = str "semantic" ∨ strategy = str "hybrid" then
    .not_implemented strategy
  else
    let snippets := search_chunks all_chunks query max_results
    if snippets.isEmpty then .no_results query
    else .results snippets

/-! ## Derived definitions used in theorem statements -/

/-- Non-whitespace characters, the payload preserved by chunking. -/
def notSpace (c : Char) : Bool := !(isSpace c)

/-- The chunks `chunk_markdown` produces for one section: the section intact
when it fits, its paragraph chunks otherwise. -/
def sectionChunks (maxChunkSize : Nat) (file_path : Text) (s : MSection) : List Chunk :=
  if s.content.length ≤ maxChunkSize then
    [⟨s.content, s.header_path, s.start, s.stop, file_path⟩]
  else chunk_by_paragraphs maxChunkSize s.content s.header_path s.start file_path

/-- Concatenation, in order, of the contents of a chunk list. -/
def concatContents (cs : List Chunk) : Text := (cs.map Chunk.content).flatten

/-- Remove trailing newline characters ("normalization of trailing
newlines", the one discrepancy claim C2 allows). -/
def stripTrailingNewlines (s : Text) : Text :=
  (s.reverse.dropWhile (· = '\n')).reverse

/-- A `Chunk` carrying the fields a `SearchSnippet` copied from its
originating chunk (used to state that hybrid scores are the normalized
lexical scores of the returned chunks). -/
def snippetChunk (r : SearchSnippet) : Chunk :=
  ⟨r.full_chunk, r.header_path, r.start_char, r.end_char, r.file_path⟩

/-! # Helper lemmas

## Text model: split/join round-trips and whitespace filtering -/

theorem splitLines_ne_nil (l : Text) : splitLines l ≠ [] := by
  induction l using splitLines.induct with
  | case1 => simp [splitLines]
  | case2 rest ih => simp [splitLines]
  | case3 c rest h hs ih => simp [splitLines, hs]
  | case4 c rest h x xs hs ih => simp [splitLines, hs]

theorem joinSep_splitLines (l : Text) : joinSep ['\n'] (splitLines l) = l := by
  induction l using splitLines.induct with
  | case1 => rfl
  | case2 rest ih =>
    have h := splitLines_ne_nil rest
    simp only [splitLines]
    match hs : splitLines rest with
    | [] => exact absurd hs h
    | x :: xs =>
      rw [hs] at ih
      simpa [joinSep] using ih
  | case3 c rest h hs ih =>
    rw [hs] at ih
    simp [joinSep] at ih
    simp [splitLines, hs, joinSep, ← ih]
  | case4 c rest h x xs hs ih =>
    rw [hs] at ih
    simp only [splitLines, hs]
    cases xs with
    | nil => simpa [joinSep] using congrArg (c :: ·) ih
    | cons y ys => simpa [joinSep] using congrArg (c :: ·) ih

theorem splitParas_ne_nil (l : Text) : splitParas l ≠ [] := by
  induction l using splitParas.induct with
  | case1 => simp [splitParas]
  | case2 rest ih => simp [splitParas]
  | case3 c rest h hs ih => simp [splitParas, hs]
  | case4 c rest h x xs hs ih => simp [splitParas, hs]

theorem joinSep_splitParas (l : Text) : joinSep ['\n', '\n'] (splitParas l) = l := by
  induction l using splitParas.induct with
  | case1 => rfl
  | case2 rest ih =>
    have h := splitParas_ne_nil rest
    simp only [splitParas]
    match hs : splitParas rest with
    | [] => exact absurd hs h
    | x :: xs =>
      rw [hs] at ih
      simpa [joinSep] using ih
  | case3 c rest h hs ih =>
    rw [hs] at ih
    simp [joinSep] at ih
    simp [splitParas, hs, joinSep, ← ih]
  | case4 c rest h x xs hs ih =>
    rw [hs] at ih
    simp only [splitParas, hs]
    cases xs with
    | nil => simpa [joinSep] using congrArg (c :: ·) ih
    | cons y ys => simpa [joinSep] using congrArg (c :: ·) ih

theorem filter_notSpace_dropWhile (l : Text) :
    (l.dropWhile isSpace).filter notSpace = l.filter notSpace := by
  induction l with
  | nil => rfl
  | cons c t ih =>
    by_cases hc : isSpace c
    · simp [List.dropWhile_cons, hc, ih, List.filter_cons, notSpace]
    · simp [List.dropWhile_cons, hc]

theorem filter_notSpace_trim (l : Text) :
    (trim l).filter notSpace = l.filter notSpace := by
  unfold trim
  rw [List.filter_reverse, filter_notSpace_dropWhile, List.filter_reverse,
    List.reverse_reverse, filter_notSpace_dropWhile]

theorem filter_notSpace_of_trim_nil {l : Text} (h : trim l = []) :
    l.filter notSpace = [] := by
  rw [← filter_notSpace_trim, h]
  rfl

theorem trim_length_le (l : Text) : (trim l).length ≤ l.length := by
  unfold trim
  calc ((l.dropWhile isSpace).reverse.dropWhile isSpace).reverse.length
      = ((l.dropWhile isSpace).reverse.dropWhile isSpace).length := List.length_reverse _
    _ ≤ (l.dropWhile isSpace).reverse.length := (List.dropWhile_sublist _).length_le
    _ = (l.dropWhile isSpace).length := List.length_reverse _
    _ ≤ l.length := (List.dropWhile_sublist _).length_le

theorem dropWhile_append_of_all {p : Char → Bool} {a : Text} (b : Text)
    (h : ∀ c ∈ a, p c) : (a ++ b).dropWhile p = b.dropWhile p := by
  induction a with
  | nil => rfl
  | cons c t ih =>
    simp only [List.cons_append, List.dropWhile_cons, h c (by simp)]
    exact ih fun x hx => h x (by simp [hx])

theorem trim_append_spaces (l : Text) {s : Text} (hs : ∀ c ∈ s, isSpace c) :
    trim (l ++ s) = trim l := by
  by_cases h : l.dropWhile isSpace = []
  · have hall : ∀ c ∈ l, isSpace c := List.dropWhile_eq_nil_iff.mp h
    have hls : ∀ c ∈ l ++ s, isSpace c := by
      intro c hc
      rcases List.mem_append.mp hc with hcl | hcs
      · exact hall c hcl
      · exact hs c hcs
    unfold trim
    rw [h, List.dropWhile_eq_nil_iff.mpr hls]
  · have h1 : (l ++ s).dropWhile isSpace = l.dropWhile isSpace ++ s := by
      induction l with
      | nil => exact absurd rfl h
      | cons c t ih =>
        by_cases hc : isSpace c
        · have ht : ¬ t.dropWhile isSpace = [] := by
            intro ht
            exact h (by rw [List.dropWhile_cons, if_pos hc]; exact ht)
          simp only [List.cons_append, List.dropWhile_cons, hc, if_true]
          exact ih ht
        · simp [List.dropWhile_cons, hc]
    unfold trim
    rw [h1, List.reverse_append,
      dropWhile_append_of_all (l.dropWhile isSpace).reverse
        (fun c hc => hs c (List.mem_reverse.mp hc))]

theorem filter_notSpace_joinSep (sep : Text) (hsep : sep.filter notSpace = []) :
    ∀ ls : List Text,
      (joinSep sep ls).filter notSpace = (ls.map (List.filter notSpace)).flatten
  | [] => by simp [joinSep]
  | [x] => by simp [joinSep]
  | x :: y :: ys => by
    have ih := filter_notSpace_joinSep sep hsep (y :: ys)
    simp [joinSep, List.filter_append, hsep, ih]

/-! ## Generic list helpers -/

theorem mem_foldl_append {α β : Type} {f : α → List β} :
    ∀ (l : List α) (init : List β) (b : β),
      (b ∈ l.foldl (fun acc x => acc ++ f x) init ↔ b ∈ init ∨ ∃ x ∈ l, b ∈ f x)
  | [], init, b => by simp
  | x :: xs, init, b => by
    rw [List.foldl_cons, mem_foldl_append xs, List.mem_append]
    constructor
    · rintro ((h | h) | ⟨y, hy, hby⟩)
      · exact Or.inl h
      · exact Or.inr ⟨x, List.mem_cons_self x xs, h⟩
      · exact Or.inr ⟨y, List.mem_cons_of_mem x hy, hby⟩
    · rintro (h | ⟨y, hy, hby⟩)
      · exact Or.inl (Or.inl h)
      · rcases List.mem_cons.mp hy with rfl | hy₂
        · exact Or.inl (Or.inr hby)
        · exact Or.inr ⟨y, hy₂, hby⟩

theorem chunk_markdown_eq_foldl (maxChunkSize : Nat) (content file_path : Text) :
    chunk_markdown maxChunkSize content file_path =
      (split_by_headers content).foldl
        (fun acc s => acc ++ sectionChunks maxChunkSize file_path s) [] := by
  unfold chunk_markdown
  congr 1
  funext acc s
  unfold sectionChunks
  by_cases h : s.content.length ≤ maxChunkSize <;> simp [h]

theorem mem_chunk_markdown {maxChunkSize : Nat} {content file_path : Text} {c : Chunk} :
    c ∈ chunk_markdown maxChunkSize content file_path ↔
      ∃ s ∈ split_by_headers content, c ∈ sectionChunks maxChunkSize file_path s := by
  rw [chunk_markdown_eq_foldl, mem_foldl_append]
  simp

theorem perm_insertDescBy {α : Type} (key : α → ℚ) (r : α) :
    ∀ l : List α, (insertDescBy key r l).Perm (r :: l)
  | [] => List.Perm.refl _
  | x :: xs => by
    unfold insertDescBy
    split
    · exact List.Perm.refl _
    · exact ((perm_insertDescBy key r xs).cons x).trans (List.Perm.swap r x xs)

theorem perm_sortDescBy {α : Type} (key : α → ℚ) :
    ∀ l : List α, (sortDescBy key l).Perm l
  | [] => List.Perm.refl _
  | x :: xs =>
    (perm_insertDescBy key x (sortDescBy key xs)).trans
      ((perm_sortDescBy key xs).cons x)

theorem mem_sortDescBy {α : Type} {key : α → ℚ} {l : List α} {x : α} :
    x ∈ sortDescBy key l ↔ x ∈ l :=
  (perm_sortDescBy key l).mem_iff

/-! ## Lexical scoring lemmas -/

theorem foldl_add_one_eq_filter_length (p : Text → Prop) [DecidablePred p] :
    ∀ (ws : List Text) (s : ℚ),
      ws.foldl (fun s w => if p w then s + 1 else s) s
        = s + ((ws.filter fun w => decide (p w)).length : ℚ)
  | [], s => by simp
  | w :: ws, s => by
    rw [List.foldl_cons, foldl_add_one_eq_filter_length p ws]
    by_cases h : p w
    · simp [List.filter_cons, h]
      ring
    · simp [List.filter_cons, h]

theorem calculate_relevance_eq (chunk : Chunk) (query : Text) :
    calculate_relevance chunk query = relevanceSpecFormula chunk query := by
  simp only [calculate_relevance, relevanceSpecFormula]
  rw [foldl_add_one_eq_filter_length
    (fun w => 3 < w.length ∧ hasSubstr (lower chunk.header_path) w)]
  simp only [Bool.decide_and, Bool.decide_coe]
  by_cases h1 : hasSubstr (lower chunk.header_path) (lower query) <;>
    by_cases h2 : chunk.start_char < 1000 <;>
    simp [h1, h2]

theorem calculate_relevance_nonneg (chunk : Chunk) (query : Text) :
    0 ≤ calculate_relevance chunk query := by
  rw [calculate_relevance_eq]
  unfold relevanceSpecFormula
  have h1 : (0 : ℚ) ≤ countSub (lower chunk.content) (lower query) * (1 / 10) := by
    positivity
  by_cases h2 : hasSubstr (lower chunk.header_path) (lower query) <;>
    by_cases h3 : chunk.start_char < 1000 <;>
    simp [h2, h3] <;> positivity

/-! # Claims -/

/-- **C4.** `calculate_relevance` returns exactly the sum described by the
claim — 2.0 for the full (case-insensitive) query occurring in the header
path, otherwise 1.0 per query word longer than 3 characters found there, plus
0.1 per occurrence of the query in the content, plus 0.5 when
`start_char < 1000` — and the score is always non-negative. -/
theorem c4_calculate_relevance_formula_and_nonneg (chunk : Chunk) (query : Text) :
    calculate_relevance chunk query = relevanceSpecFormula chunk query ∧
      0 ≤ calculate_relevance chunk query :=
  ⟨calculate_relevance_eq chunk query, calculate_relevance_nonneg chunk query⟩

/-- **C8.** `SemanticIndex.search` on an unbuilt index (`_embeddings = []`,
the state of a freshly constructed index) or an empty chunk list returns the
empty list without raising: the guard fires before `_get_model` could
throw. -/
theorem c8_search_unbuilt_returns_empty (encode : Text → List ℚ)
    (normalizeVec : List ℚ → List ℚ) (st : SemanticIndexState) (query : Text)
    (chunks : List Chunk) (top_k : Nat)
    (h : st.embeddings = [] ∨ chunks = []) :
    semSearch encode normalizeVec st query chunks top_k = Except.ok [] := by
  unfold semSearch
  rcases h with h | h <;> simp [h]

/-- Witness for C8 at a concrete instance: an unbuilt, available index and a
non-empty chunk list. -/
theorem c8_search_unbuilt_returns_empty_witness :
    semSearch (fun _ => [(1 : ℚ)]) (fun v => v) ⟨true, []⟩ (str "query")
      [⟨str "text", str "(root)", 0, 4, str "a.md"⟩] 10 = Except.ok [] :=
  c8_search_unbuilt_returns_empty _ _ _ _ _ _ (Or.inl rfl)

/-- **C9, counterexample.** With a failing cache write, `build_index` does
not return the newly-embedded count (here 1): `_save_cache` has no exception
handler, so the write error is the outcome of the call. -/
theorem c9_build_index_save_failure_counterexample :
    (build_index (fun t => t) (fun _ => [(1 : ℚ)]) (fun v => v) []
        (Except.error (str "disk full"))
        [⟨str "hello", str "(root)", 0, 5, str "a.md"⟩]).2
      = Except.error (str "disk full") ∧
    (build_index (fun t => t) (fun _ => [(1 : ℚ)]) (fun v => v) []
        (Except.error (str "disk full"))
        [⟨str "hello", str "(root)", 0, 5, str "a.md"⟩]).2
      ≠ Except.ok 1 := by
  refine ⟨rfl, fun h => ?_⟩
  rw [show (build_index (fun t => t) (fun _ => [(1 : ℚ)]) (fun v => v) []
      (Except.error (str "disk full"))
      [⟨str "hello", str "(root)", 0, 5, str "a.md"⟩]).2
      = Except.error (str "disk full") from rfl] at h
  exact Except.noConfusion h

/-- **C9, amended.** If persisting the embedding cache fails during
`build_index` (on a non-empty chunk list), the in-memory index has been fully
built — one embedding per chunk — but the failure propagates out of
`build_index` instead of the newly-embedded count being returned. -/
theorem c9_build_index_save_failure_propagates (hashFn : Text → Text)
    (encode : Text → List ℚ) (normalizeVec : List ℚ → List ℚ)
    (cache₀ : List (Text × List ℚ)) (e : Text) (chunks : List Chunk)
    (h : chunks ≠ []) :
    (build_index hashFn encode normalizeVec cache₀ (Except.error e) chunks).2
        = Except.error e ∧
    (build_index hashFn encode normalizeVec cache₀ (Except.error e) chunks).1.length
        = chunks.length := by
  have hne : chunks.isEmpty = false := by
    cases chunks with
    | nil => exact absurd rfl h
    | cons c cs => rfl
  unfold build_index
  simp [hne]

/-- Witness for the amended C9 at a concrete instance. -/
theorem c9_build_index_save_failure_witness :
    (build_index (fun t => t) (fun _ => [(1 : ℚ)]) (fun v => v) []
        (Except.error (str "io error"))
        [⟨str "hello", str "(root)", 0, 5, str "b.md"⟩]).2
      = Except.error (str "io error") :=
  (c9_build_index_save_failure_propagates _ _ _ _ _ _ (by simp)).1

/-- **C5, counterexample.** Requesting the `semantic` (resp. `hybrid`)
strategy returns the fixed not-yet-implemented notice even though the chunk
collection contains a literal match the keyword path would have found; the
dispatch in `search_markdown` consults no embedding-backend availability flag
at all, so the backend being present cannot change this outcome. -/
theorem c5_strategy_dispatch_counterexample :
    search_markdown_logic [⟨str "semantic search text", str "(root)", 0, 20, str "a.md"⟩]
        (str "semantic") 5 (str "semantic")
      = SearchMarkdownOutcome.not_implemented (str "semantic") ∧
    search_markdown_logic [⟨str "semantic search text", str "(root)", 0, 20, str "a.md"⟩]
        (str "semantic") 5 (str "hybrid")
      = SearchMarkdownOutcome.not_implemented (str "hybrid") :=
  ⟨rfl, rfl⟩

/-- **C5, amended.** In `search_markdown` only the keyword strategy is ever
performed: requesting `semantic` or `hybrid` always returns the
not-yet-implemented notice (regardless of any embedding backend), while
`keyword` always runs the search and reports its snippets or "no
results". -/
theorem c5_strategy_dispatch (all_chunks : List Chunk) (query : Text)
    (max_results : Nat) :
    (∀ strategy, strategy = str "semantic" ∨ strategy = str "hybrid" →
      search_markdown_logic all_chunks query max_results strategy
        = SearchMarkdownOutcome.not_implemented strategy) ∧
    (search_markdown_logic all_chunks query max_results (str "keyword")
        = SearchMarkdownOutcome.no_results query ∨
      ∃ snippets, search_markdown_logic all_chunks query max_results (str "keyword")
        = SearchMarkdownOutcome.results snippets) := by
  constructor
  · rintro strategy (rfl | rfl) <;> rfl
  · rw [search_markdown_logic, if_neg (by decide), if_neg (by decide)]
    by_cases h : (search_chunks all_chunks query max_results).isEmpty
    · exact Or.inl (by simp [h])
    · exact Or.inr ⟨search_chunks all_chunks query max_results, by simp [h]⟩

/-- Witness for the amended C5 at a concrete instance. -/
theorem c5_strategy_dispatch_witness :
    search_markdown_logic [] (str "q") 5 (str "semantic")
      = SearchMarkdownOutcome.not_implemented (str "semantic") :=
  (c5_strategy_dispatch [] (str "q") 5).1 (str "semantic") (Or.inl rfl)

/-- **C10.** Every result of `search_chunks` (the keyword strategy of
`search_markdown`) comes from a chunk whose lower-cased content contains the
lower-cased query; a chunk matching the query only in its `header_path` is
never returned. -/
theorem c10_keyword_results_require_content_match (chunks : List Chunk)
    (query : Text) (max_results : Nat) :
    ∀ r ∈ search_chunks chunks query max_results,
      ∃ c ∈ chunks, r.full_chunk = c.content ∧
        hasSubstr (lower c.content) (lower query) = true := by
  intro r hr
  simp only [search_chunks] at hr
  have h₁ := List.take_subset _ _ hr
  have h₂ := mem_sortDescBy.mp h₁
  rcases List.mem_map.mp h₂ with ⟨c, hc, rfl⟩
  have h₃ := List.mem_filter.mp hc
  exact ⟨c, h₃.1, rfl, h₃.2⟩

/-- Witness for C10 at a concrete instance. -/
theorem c10_keyword_results_require_content_match_witness :
    ∃ c ∈ [(⟨str "alpha beta", str "(root)", 0, 10, str "a.md"⟩ : Chunk)],
      (mkKeywordSnippet ⟨str "alpha beta", str "(root)", 0, 10, str "a.md"⟩
        (str "beta")).full_chunk = c.content ∧
      hasSubstr (lower c.content) (lower (str "beta")) = true :=
  c10_keyword_results_require_content_match
    [⟨str "alpha beta", str "(root)", 0, 10, str "a.md"⟩] (str "beta") 10
    (mkKeywordSnippet ⟨str "alpha beta", str "(root)", 0, 10, str "a.md"⟩ (str "beta"))
    (by
      have hfil : ([(⟨str "alpha beta", str "(root)", 0, 10, str "a.md"⟩ : Chunk)]).filter
          (fun chunk => hasSubstr (lower chunk.content) (lower (str "beta")))
          = [⟨str "alpha beta", str "(root)", 0, 10, str "a.md"⟩] := by
        rw [List.filter_cons, if_pos (by decide)]
        rfl
      simp only [search_chunks, hfil, List.map_cons, List.map_nil, sortDescBy, insertDescBy]
      simp)

/-! ## Header stack lemmas (C3) -/

theorem head?_dropWhile_false {α : Type} (p : α → Bool) :
    ∀ (l : List α) (y : α), (l.dropWhile p).head? = some y → p y = false
  | [], y, h => by simp at h
  | x :: xs, y, h => by
    rw [List.dropWhile_cons] at h
    by_cases hx : p x
    · rw [if_pos hx] at h
      exact head?_dropWhile_false p xs y h
    · rw [if_neg hx] at h
      simp only [List.head?_cons, Option.some.injEq] at h
      subst h
      exact Bool.eq_false_iff.mpr hx

/-- One step of `_split_by_headers` preserves strict level nesting of the
header stack: on a header of level `L`, every retained entry has level `< L`
(the `while ... >= level: pop` loop), and the new entry is pushed on top. -/
theorem splitStep_stack_chain (st : SplitState) (line : Text)
    (h : List.Chain' (fun a b => b.level < a.level) st.stack) :
    List.Chain' (fun a b => b.level < a.level) ((splitStep st line).stack) := by
  unfold splitStep
  cases hp : parseHeader line with
  | none => simpa [hp] using h
  | some lv =>
    simp only [hp]
    refine List.chain'_cons'.mpr ⟨?_, h.suffix (List.dropWhile_suffix _)⟩
    intro y hy
    have hfalse := head?_dropWhile_false (fun e => decide (lv.1 ≤ e.level)) st.stack y hy
    simp only [decide_eq_false_iff_not, not_le] at hfalse
    exact hfalse

theorem splitFold_stack_chain :
    ∀ (lines : List Text) (st : SplitState),
      List.Chain' (fun a b => b.level < a.level) st.stack →
      List.Chain' (fun a b => b.level < a.level) ((lines.foldl splitStep st).stack)
  | [], _, h => h
  | line :: rest, st, h =>
    splitFold_stack_chain rest (splitStep st line) (splitStep_stack_chain st line h)

/-- **C3.** The header stack of `_split_by_headers` pops every entry of level
`≥ L` before pushing a new level-`L` header, so after processing any line
sequence the stack levels are strictly nested (innermost on top) and
`header_path` joins strict ancestors only; on the claim's concrete input the
chunk under `D` has header path `"A > D"`, not `"A > B > D"`. -/
theorem c3_header_stack_strict_ancestors :
    (∀ lines : List Text,
      List.Chain' (fun a b => b.level < a.level)
        ((lines.foldl splitStep splitInit).stack)) ∧
    (chunk_markdown 1000 (str "# A\n## B\n### C\ntext\n## D\ntext") (str "doc.md")).map
        Chunk.header_path
      = [str "A", str "A > B", str "A > B > C", str "A > D"] := by
  constructor
  · intro lines
    exact splitFold_stack_chain lines splitInit (by simp [splitInit])
  · decide

/-! ## Paragraph packing size bound (C1) -/

/-- Flushing the running buffer: the stripped buffer either fits in
`maxChunkSize` or is a single stripped paragraph that itself exceeds it. -/
theorem flush_chunk_size {m : Nat} {cur : Text} {mem : Text → Prop}
    (hcur : cur.length ≤ m ∨ ∃ p, mem p ∧ cur = p ++ ['\n', '\n']) :
    (trim cur).length ≤ m ∨ ∃ p, mem p ∧ trim cur = trim p ∧ m < p.length := by
  rcases hcur with h | ⟨p, hp, rfl⟩
  · exact Or.inl ((trim_length_le cur).trans h)
  · rw [trim_append_spaces p (by decide)]
    by_cases hlen : (trim p).length ≤ m
    · exact Or.inl hlen
    · exact Or.inr ⟨p, hp, rfl, lt_of_lt_of_le (not_le.mp hlen) (trim_length_le p)⟩

/-- Invariant of the paragraph-packing loop: every flushed chunk fits or is
one oversized stripped paragraph, and the running buffer fits or is a single
paragraph with its `'\n\n'` suffix (the buffer only starts oversized when one
paragraph alone overflows, and is then flushed before anything is added). -/
theorem paraFold_size_inv (m : Nat) (hp₀ fp : Text) (mem : Text → Prop) :
    ∀ (ps : List Text) (st : ParaState),
      (∀ p ∈ ps, mem p) →
      (∀ c ∈ st.chunks, c.content.length ≤ m ∨
        ∃ p, mem p ∧ c.content = trim p ∧ m < p.length) →
      (st.current_chunk.length ≤ m ∨
        ∃ p, mem p ∧ st.current_chunk = p ++ ['\n', '\n']) →
      (∀ c ∈ (ps.foldl (paraStep m hp₀ fp) st).chunks,
          c.content.length ≤ m ∨
          ∃ p, mem p ∧ c.content = trim p ∧ m < p.length) ∧
      ((ps.foldl (paraStep m hp₀ fp) st).current_chunk.length ≤ m ∨
        ∃ p, mem p ∧ (ps.foldl (paraStep m hp₀ fp) st).current_chunk = p ++ ['\n', '\n'])
  | [], _, _, hch, hcur => ⟨hch, hcur⟩
  | q :: ps, st, hmem, hch, hcur => by
    rw [List.foldl_cons]
    have hmemq : mem q := hmem q (List.mem_cons_self q ps)
    refine paraFold_size_inv m hp₀ fp mem ps _
      (fun p hp => hmem p (List.mem_cons_of_mem q hp)) ?_ ?_
    · intro c hc
      simp only [paraStep] at hc
      by_cases hov : m < st.current_chunk.length + (q ++ ['\n', '\n']).length
      · rw [if_pos hov] at hc
        simp only at hc
        by_cases hemp : (trim st.current_chunk).isEmpty
        · rw [if_pos hemp] at hc
          exact hch c hc
        · rw [if_neg hemp] at hc
          rcases List.mem_append.mp hc with hcold | hcnew
          · exact hch c hcold
          · have hceq : c = ⟨trim st.current_chunk, hp₀, st.chunk_start, st.char_offset, fp⟩ :=
              List.mem_singleton.mp hcnew
            subst hceq
            exact flush_chunk_size hcur
      · rw [if_neg hov] at hc
        exact hch c hc
    · simp only [paraStep]
      by_cases hov : m < st.current_chunk.length + (q ++ ['\n', '\n']).length
      · rw [if_pos hov]
        exact Or.inr ⟨q, hmemq, rfl⟩
      · rw [if_neg hov]
        refine Or.inl ?_
        simp only [List.length_append] at hov ⊢
        omega

theorem chunk_by_paragraphs_size (m : Nat) (content hp₀ : Text) (so : Nat) (fp : Text) :
    ∀ c ∈ chunk_by_paragraphs m content hp₀ so fp,
      c.content.length ≤ m ∨
      ∃ p ∈ splitParas content, c.content = trim p ∧ m < p.length := by
  intro c hc
  unfold chunk_by_paragraphs at hc
  have h := paraFold_size_inv m hp₀ fp (fun p => p ∈ splitParas content)
    (splitParas content) ⟨[], [], so, so⟩ (fun _ hp => hp)
    (by intro c hc; simp at hc) (Or.inl (by simp))
  set st := (splitParas content).foldl (paraStep m hp₀ fp) ⟨[], [], so, so⟩ with hst
  by_cases hemp : (trim st.current_chunk).isEmpty
  · rw [if_pos hemp] at hc
    exact h.1 c hc
  · rw [if_neg hemp] at hc
    rcases List.mem_append.mp hc with hcold | hcnew
    · exact h.1 c hcold
    · have hceq : c = ⟨trim st.current_chunk, hp₀, st.chunk_start, st.char_offset, fp⟩ :=
        List.mem_singleton.mp hcnew
      subst hceq
      exact flush_chunk_size h.2

/-- **C1.** Every chunk `chunk_markdown` produces either fits in
`max_chunk_size`, or is a single stripped paragraph of one of the document's
sections whose own length already exceeds `max_chunk_size` — oversized atomic
units are kept intact, never truncated. -/
theorem c1_chunk_size_bound (maxChunkSize : Nat) (content file_path : Text) :
    ∀ c ∈ chunk_markdown maxChunkSize content file_path,
      c.content.length ≤ maxChunkSize ∨
      ∃ s ∈ split_by_headers content, ∃ p ∈ splitParas s.content,
        c.content = trim p ∧ maxChunkSize < p.length := by
  intro c hc
  rcases mem_chunk_markdown.mp hc with ⟨s, hs, hcs⟩
  unfold sectionChunks at hcs
  by_cases hsmall : s.content.length ≤ maxChunkSize
  · rw [if_pos hsmall] at hcs
    have hceq : c = ⟨s.content, s.header_path, s.start, s.stop, file_path⟩ :=
      List.mem_singleton.mp hcs
    subst hceq
    exact Or.inl hsmall
  · rw [if_neg hsmall] at hcs
    rcases chunk_by_paragraphs_size maxChunkSize s.content s.header_path s.start
        file_path c hcs with h | ⟨p, hp, hcp, hlen⟩
    · exact Or.inl h
    · exact Or.inr ⟨s, hs, p, hp, hcp, hlen⟩

/-- Witness for C1 at a concrete instance: the oversized paragraph
`"bcdefgh"` becomes its own chunk under `max_chunk_size = 3`. -/
theorem c1_chunk_size_bound_witness :
    (⟨str "bcdefgh", str "(root)", 3, 13, str "d.md"⟩ : Chunk).content.length ≤ 3 ∨
    ∃ s ∈ split_by_headers (str "a\n\nbcdefgh"), ∃ p ∈ splitParas s.content,
      (⟨str "bcdefgh", str "(root)", 3, 13, str "d.md"⟩ : Chunk).content = trim p ∧
        3 < p.length :=
  c1_chunk_size_bound 3 (str "a\n\nbcdefgh") (str "d.md")
    ⟨str "bcdefgh", str "(root)", 3, 13, str "d.md"⟩ (by decide)

/-! ## Coverage of non-whitespace content (C2) -/

theorem filter_notSpace_newline : List.filter notSpace ['\n'] = [] := by decide

theorem filter_notSpace_nn : List.filter notSpace ['\n', '\n'] = [] := by decide

theorem foldl_append_eq_flatten {α β : Type} (f : α → List β) :
    ∀ (l : List α) (init : List β),
      l.foldl (fun acc x => acc ++ f x) init = init ++ (l.map f).flatten
  | [], init => by simp
  | x :: xs, init => by
    rw [List.foldl_cons, foldl_append_eq_flatten f xs]
    simp

/-- One `_split_by_headers` step adds exactly the line's non-whitespace
characters to the accumulated section contents (a whitespace-only section may
be dropped, losing only whitespace). -/
theorem splitStep_content_filter (st : SplitState) (line : Text) :
    (((splitStep st line).sections.map MSection.content).flatten
        ++ (splitStep st line).current.content).filter notSpace
      = (((st.sections.map MSection.content).flatten
          ++ st.current.content).filter notSpace)
        ++ line.filter notSpace := by
  unfold splitStep
  cases hp : parseHeader line with
  | none =>
    simp [List.filter_append, filter_notSpace_newline]
  | some lv =>
    simp only [hp]
    by_cases hemp : (trim st.current.content).isEmpty
    · rw [if_pos hemp]
      have hcur : st.current.content.filter notSpace = [] :=
        filter_notSpace_of_trim_nil (List.isEmpty_iff.mp hemp)
      simp [List.filter_append, filter_notSpace_newline, hcur]
    · rw [if_neg hemp]
      simp [List.filter_append, filter_notSpace_newline]

theorem splitFold_content :
    ∀ (lines : List Text) (st : SplitState),
      (((lines.foldl splitStep st).sections.map MSection.content).flatten
          ++ (lines.foldl splitStep st).current.content).filter notSpace
        = (((st.sections.map MSection.content).flatten
            ++ st.current.content).filter notSpace)
          ++ (lines.map (List.filter notSpace)).flatten
  | [], st => by simp
  | line :: rest, st => by
    rw [List.foldl_cons, splitFold_content rest (splitStep st line),
      splitStep_content_filter]
    simp

/-- `_split_by_headers` preserves all non-whitespace characters of the
document. -/
theorem split_by_headers_content_filter (content : Text) :
    ((split_by_headers content).map MSection.content).flatten.filter notSpace
      = content.filter notSpace := by
  have hlines : ((splitLines content).map (List.filter notSpace)).flatten
      = content.filter notSpace := by
    have h := filter_notSpace_joinSep ['\n'] filter_notSpace_newline (splitLines content)
    rw [joinSep_splitLines] at h
    exact h.symm
  unfold split_by_headers
  have hF := splitFold_content (splitLines content) splitInit
  set st := (splitLines content).foldl splitStep splitInit with hst
  rw [List.filter_append] at hF
  simp only [splitInit, List.map_nil, List.flatten_nil, List.nil_append,
    List.filter_nil, hlines] at hF
  by_cases hemp : (trim st.current.content).isEmpty
  · rw [if_pos hemp]
    have hcur : st.current.content.filter notSpace = [] :=
      filter_notSpace_of_trim_nil (List.isEmpty_iff.mp hemp)
    rw [hcur, List.append_nil] at hF
    exact hF
  · rw [if_neg hemp]
    simp only [List.map_append, List.flatten_append, List.map_cons, List.map_nil,
      List.flatten_cons, List.flatten_nil, List.append_nil, List.filter_append]
    exact hF

/-- One paragraph-packing step adds exactly the paragraph's non-whitespace
characters (stripping and dropped whitespace-only buffers lose only
whitespace). -/
theorem paraStep_content_filter (m : Nat) (hp₀ fp : Text) (st : ParaState) (q : Text) :
    (((paraStep m hp₀ fp st q).chunks.map Chunk.content).flatten
        ++ (paraStep m hp₀ fp st q).current_chunk).filter notSpace
      = (((st.chunks.map Chunk.content).flatten
          ++ st.current_chunk).filter notSpace)
        ++ q.filter notSpace := by
  simp only [paraStep]
  by_cases hov : m < st.current_chunk.length + (q ++ ['\n', '\n']).length
  · rw [if_pos hov]
    by_cases hemp : (trim st.current_chunk).isEmpty
    · rw [if_pos hemp]
      have hcur : st.current_chunk.filter notSpace = [] :=
        filter_notSpace_of_trim_nil (List.isEmpty_iff.mp hemp)
      simp [List.filter_append, filter_notSpace_nn, hcur]
    · rw [if_neg hemp]
      simp [List.filter_append, filter_notSpace_nn, filter_notSpace_trim]
  · rw [if_neg hov]
    simp [List.filter_append, filter_notSpace_nn]

theorem paraFold_content (m : Nat) (hp₀ fp : Text) :
    ∀ (ps : List Text) (st : ParaState),
      (((ps.foldl (paraStep m hp₀ fp) st).chunks.map Chunk.content).flatten
          ++ (ps.foldl (paraStep m hp₀ fp) st).current_chunk).filter notSpace
        = (((st.chunks.map Chunk.content).flatten
            ++ st.current_chunk).filter notSpace)
          ++ (ps.map (List.filter notSpace)).flatten
  | [], st => by simp
  | q :: ps, st => by
    rw [List.foldl_cons, paraFold_content m hp₀ fp ps (paraStep m hp₀ fp st q),
      paraStep_content_filter]
    simp

/-- `_chunk_by_paragraphs` preserves all non-whitespace characters of the
section. -/
theorem chunk_by_paragraphs_content_filter (m : Nat) (content hp₀ : Text)
    (so : Nat) (fp : Text) :
    ((chunk_by_paragraphs m content hp₀ so fp).map Chunk.content).flatten.filter notSpace
      = content.filter notSpace := by
  have hparas : ((splitParas content).map (List.filter notSpace)).flatten
      = content.filter notSpace := by
    have h := filter_notSpace_joinSep ['\n', '\n'] filter_notSpace_nn (splitParas content)
    rw [joinSep_splitParas] at h
    exact h.symm
  unfold chunk_by_paragraphs
  have hF := paraFold_content m hp₀ fp (splitParas content) ⟨[], [], so, so⟩
  set st := (splitParas content).foldl (paraStep m hp₀ fp) ⟨[], [], so, so⟩ with hst
  rw [List.filter_append] at hF
  simp only [List.map_nil, List.flatten_nil, List.nil_append, List.filter_nil,
    hparas] at hF
  by_cases hemp : (trim st.current_chunk).isEmpty
  · rw [if_pos hemp]
    have hcur : st.current_chunk.filter notSpace = [] :=
      filter_notSpace_of_trim_nil (List.isEmpty_iff.mp hemp)
    rw [hcur, List.append_nil] at hF
    exact hF
  · rw [if_neg hemp]
    simp only [List.map_append, List.flatten_append, List.map_cons, List.map_nil,
      List.flatten_cons, List.flatten_nil, List.append_nil, List.filter_append]
    rw [filter_notSpace_trim]
    exact hF

theorem sectionChunks_content_filter (m : Nat) (fp : Text) (s : MSection) :
    ((sectionChunks m fp s).map Chunk.content).flatten.filter notSpace
      = s.content.filter notSpace := by
  unfold sectionChunks
  by_cases h : s.content.length ≤ m
  · rw [if_pos h]
    simp
  · rw [if_neg h]
    exact chunk_by_paragraphs_content_filter m s.content s.header_path s.start fp

theorem concatContents_sections (m : Nat) (fp : Text) :
    ∀ ss : List MSection,
      (concatContents ((ss.map (sectionChunks m fp)).flatten)).filter notSpace
        = ((ss.map MSection.content).flatten).filter notSpace
  | [] => by simp [concatContents]
  | s :: ss => by
    simp only [concatContents, List.map_cons, List.flatten_cons, List.map_append,
      List.flatten_append, List.filter_append]
    rw [sectionChunks_content_filter]
    have ih := concatContents_sections m fp ss
    simp only [concatContents] at ih
    rw [ih]

/-- **C2, counterexample.** For the document `"\n# A\nx"` the single produced
chunk is `"# A\nx\n"`: the leading blank line (a whitespace-only root
section) is dropped, which is not a normalization of *trailing* newlines, so
concatenating chunk contents does not reconstruct the input. -/
theorem c2_coverage_counterexample :
    ¬ stripTrailingNewlines
        (concatContents (chunk_markdown 1000 (str "\n# A\nx") (str "doc.md")))
      = stripTrailingNewlines (str "\n# A\nx") := by decide

/-- **C2, amended.** Concatenating the contents of all chunks, in order,
preserves exactly the non-whitespace characters of the input document: only
whitespace can be dropped (whitespace-only sections before the first header,
`'\n\n'` paragraph separators, and stripped chunk edges) and only trailing
newlines added; in particular every line that does not match the header
pattern is carried into some chunk up to whitespace. -/
theorem c2_nonspace_coverage (maxChunkSize : Nat) (content file_path : Text) :
    (concatContents (chunk_markdown maxChunkSize content file_path)).filter notSpace
      = content.filter notSpace := by
  rw [chunk_markdown_eq_foldl, foldl_append_eq_flatten, List.nil_append,
    concatContents_sections, split_by_headers_content_filter]

/-! ## Hybrid search lemmas (C6, C7) -/

theorem getD_eq_getElem_of_lt {α : Type} (l : List α) (d : α) {j : Nat}
    (hj : j < l.length) : l.getD j d = l[j] := by
  simp [List.getD_eq_getElem?_getD, List.getElem?_eq_getElem hj]

/-- Membership in the merge loop of `search_hybrid`: a snippet is produced
exactly for the positions whose combined score exceeds 0.01 or whose content
contains the query. -/
theorem mem_hybridLoop (query : Text) (kw : List ℚ) (sem : List (Nat × ℚ))
    (vw tw : ℚ) :
    ∀ (cs : List Chunk) (i₀ : Nat) (r : SearchSnippet),
      (r ∈ hybridLoop query kw sem vw tw i₀ cs ↔
        ∃ j, j < cs.length ∧
          ((1 / 100 : ℚ) < hybridCombined kw sem vw tw (i₀ + j) ∨
            hasSubstr (lower (cs.getD j defaultChunk).content) (lower query) = true) ∧
          r = mkHybridSnippet (cs.getD j defaultChunk) query
                (hybridCombined kw sem vw tw (i₀ + j)))
  | [], i₀, r => by simp [hybridLoop]
  | c :: cs, i₀, r => by
    rw [hybridLoop]
    constructor
    · intro hr
      rcases List.mem_append.mp hr with hl | hrec
      · by_cases hcond : (decide ((1 / 100 : ℚ) < hybridCombined kw sem vw tw i₀)
            || hasSubstr (lower c.content) (lower query)) = true
        · rw [if_pos hcond] at hl
          refine ⟨0, Nat.succ_pos _, ?_, ?_⟩
          · simpa [Bool.or_eq_true, decide_eq_true_eq] using hcond
          · simpa using List.mem_singleton.mp hl
        · rw [if_neg hcond] at hl
          exact absurd hl (List.not_mem_nil r)
      · rcases (mem_hybridLoop query kw sem vw tw cs (i₀ + 1) r).mp hrec
          with ⟨j, hj, hcond, hr⟩
        have hidx : i₀ + 1 + j = i₀ + (j + 1) := by omega
        rw [hidx] at hcond hr
        exact ⟨j + 1, by simpa using hj, by simpa using hcond, by simpa using hr⟩
    · rintro ⟨j, hj, hcond, rfl⟩
      cases j with
      | zero =>
        refine List.mem_append.mpr (Or.inl ?_)
        rw [if_pos ?_]
        · simp
        · simpa [Bool.or_eq_true, decide_eq_true_eq] using hcond
      | succ j =>
        refine List.mem_append.mpr (Or.inr ?_)
        refine (mem_hybridLoop query kw sem vw tw cs (i₀ + 1) _).mpr ⟨j, ?_, ?_, ?_⟩
        · simpa using hj
        · have hidx : i₀ + 1 + j = i₀ + (j + 1) := by omega
          rw [hidx]
          simpa using hcond
        · have hidx : i₀ + 1 + j = i₀ + (j + 1) := by omega
          rw [hidx]
          simp

theorem semScoreMap_eq_nil (encode : Text → List ℚ) (normalizeVec : List ℚ → List ℚ)
    {semantic_index : Option SemanticIndexState} (chunks : List Chunk) (query : Text)
    (h : semantic_index = none ∨
      ∃ st, semantic_index = some st ∧ (st.available = false ∨ st.embeddings = [])) :
    semScoreMap encode normalizeVec semantic_index chunks query = [] := by
  rcases h with rfl | ⟨st, rfl, hst⟩
  · rfl
  · unfold semScoreMap
    rcases hst with h | h <;> simp [h]

theorem hybridCombined_no_sem (kw : List ℚ) (vw tw : ℚ) (i : Nat) :
    hybridCombined kw [] vw tw i = kw.getD i 0 := by
  simp [hybridCombined]

theorem foldl_max_le :
    ∀ (l : List ℚ) (a : ℚ), a ≤ l.foldl (fun m s => if m < s then s else m) a
  | [], a => le_refl a
  | x :: xs, a => by
    rw [List.foldl_cons]
    refine le_trans ?_ (foldl_max_le xs _)
    by_cases h : a < x
    · rw [if_pos h]
      exact le_of_lt h
    · rw [if_neg h]

theorem mem_le_foldl_max :
    ∀ (l : List ℚ) (a x : ℚ), x ∈ l → x ≤ l.foldl (fun m s => if m < s then s else m) a
  | [], _, x, h => absurd h (List.not_mem_nil x)
  | y :: ys, a, x, h => by
    rw [List.foldl_cons]
    rcases List.mem_cons.mp h with rfl | h₂
    · refine le_trans ?_ (foldl_max_le ys _)
      by_cases hax : a < x
      · rw [if_pos hax]
      · rw [if_neg hax]
        exact le_of_not_lt hax
    · exact mem_le_foldl_max ys _ x h₂

theorem maxKw_nonneg (chunks : List Chunk) (query : Text) :
    0 ≤ maxKw chunks query :=
  foldl_max_le _ 0

theorem calculate_relevance_le_maxKw (chunks : List Chunk) (query : Text)
    (c : Chunk) (hc : c ∈ chunks) :
    calculate_relevance c query ≤ maxKw chunks query :=
  mem_le_foldl_max _ 0 _ (List.mem_map_of_mem _ hc)

/-- The normalized keyword score at an in-range position equals the raw
lexical score divided by `max_kw`, with the convention that an unnormalized
all-zero list equals the division by zero (`x / 0 = 0` in `ℚ`). -/
theorem kwNormScores_getD (chunks : List Chunk) (query : Text) (j : Nat)
    (hj : j < chunks.length) :
    (kwNormScores chunks query).getD j 0
      = calculate_relevance (chunks.getD j defaultChunk) query / maxKw chunks query := by
  have hget : chunks.getD j defaultChunk = chunks[j] := getD_eq_getElem_of_lt _ _ hj
  rw [hget]
  unfold kwNormScores
  by_cases hmx : 0 < maxKw chunks query
  · rw [if_pos hmx]
    have hjm₂ : j < ((chunks.map (fun c => calculate_relevance c query)).map
        (fun v => v / maxKw chunks query)).length := by simpa using hj
    rw [getD_eq_getElem_of_lt _ _ hjm₂]
    simp
  · rw [if_neg hmx]
    have hmx0 : maxKw chunks query = 0 :=
      le_antisymm (not_lt.mp hmx) (maxKw_nonneg chunks query)
    have hmem : chunks[j] ∈ chunks := List.mem_iff_get.mpr ⟨⟨j, hj⟩, rfl⟩
    have hrel : calculate_relevance chunks[j] query = 0 := by
      refine le_antisymm ?_ (calculate_relevance_nonneg _ _)
      rw [← hmx0]
      exact calculate_relevance_le_maxKw chunks query _ hmem
    have hjm : j < (chunks.map (fun c => calculate_relevance c query)).length := by
      simpa using hj
    rw [getD_eq_getElem_of_lt _ _ hjm]
    simp [hrel, hmx0]

/-- **C6.** When `search_hybrid` runs without a semantic index — `None`,
unavailable, or with an empty built index — every returned result's score is
its chunk's lexical score divided by the maximum lexical score over all
chunks (0 when that maximum is 0): hybrid search degenerates to pure
normalized lexical scoring. -/
theorem c6_hybrid_without_semantic_is_normalized_lexical
    (encode : Text → List ℚ) (normalizeVec : List ℚ → List ℚ)
    (chunks : List Chunk) (query : Text)
    (semantic_index : Option SemanticIndexState) (max_results : Nat) (vw tw : ℚ)
    (h : semantic_index = none ∨
      ∃ st, semantic_index = some st ∧ (st.available = false ∨ st.embeddings = [])) :
    ∀ r ∈ search_hybrid encode normalizeVec chunks query semantic_index
        max_results vw tw,
      r.match_score = calculate_relevance (snippetChunk r) query / maxKw chunks query := by
  intro r hr
  have hsem := semScoreMap_eq_nil encode normalizeVec chunks query h
  unfold search_hybrid at hr
  have h₁ := List.take_subset _ _ hr
  have h₂ := mem_sortDescBy.mp h₁
  unfold hybrid_candidates at h₂
  rw [hsem] at h₂
  rcases (mem_hybridLoop query (kwNormScores chunks query) [] vw tw chunks 0 r).mp h₂
    with ⟨j, hj, _, rfl⟩
  rw [hybridCombined_no_sem]
  simp only [Nat.zero_add]
  rw [kwNormScores_getD chunks query j hj]
  rfl

/-- Witness for C6 at a concrete instance (no semantic index supplied). -/
theorem c6_hybrid_without_semantic_witness :
    (mkHybridSnippet ⟨str "alpha beta", str "(root)", 0, 10, str "a.md"⟩ (str "beta")
        (hybridCombined
          (kwNormScores [⟨str "alpha beta", str "(root)", 0, 10, str "a.md"⟩] (str "beta"))
          (semScoreMap (fun _ => ([] : List ℚ)) (fun v => v) none
            [⟨str "alpha beta", str "(root)", 0, 10, str "a.md"⟩] (str "beta"))
          (7 / 10) (3 / 10) 0)).match_score
      = calculate_relevance
          (snippetChunk (mkHybridSnippet ⟨str "alpha beta", str "(root)", 0, 10, str "a.md"⟩
            (str "beta")
            (hybridCombined
              (kwNormScores [⟨str "alpha beta", str "(root)", 0, 10, str "a.md"⟩] (str "beta"))
              (semScoreMap (fun _ => ([] : List ℚ)) (fun v => v) none
                [⟨str "alpha beta", str "(root)", 0, 10, str "a.md"⟩] (str "beta"))
              (7 / 10) (3 / 10) 0)))
          (str "beta")
        / maxKw [⟨str "alpha beta", str "(root)", 0, 10, str "a.md"⟩] (str "beta") :=
  c6_hybrid_without_semantic_is_normalized_lexical (fun _ => []) (fun v => v)
    [⟨str "alpha beta", str "(root)", 0, 10, str "a.md"⟩] (str "beta") none 10
    (7 / 10) (3 / 10) (Or.inl rfl) _
    (by
      unfold search_hybrid hybrid_candidates
      have hsub : hasSubstr
          (lower (⟨str "alpha beta", str "(root)", 0, 10, str "a.md"⟩ : Chunk).content)
          (lower (str "beta")) = true := by decide
      rw [hybridLoop, if_pos (Bool.or_eq_true _ _ |>.mpr (Or.inr hsub))]
      simp [hybridLoop, sortDescBy, insertDescBy])

/-- **C7.** A chunk enters the result set of `search_hybrid` (before sorting
and truncation to `max_results`) if and only if its combined score exceeds
0.01 or the exact query string appears case-insensitively in its content; in
particular every chunk containing the query is present regardless of its
combined score. -/
theorem c7_hybrid_inclusion_rule (encode : Text → List ℚ)
    (normalizeVec : List ℚ → List ℚ) (chunks : List Chunk) (query : Text)
    (semantic_index : Option SemanticIndexState) (vw tw : ℚ) :
    (∀ r, r ∈ hybrid_candidates encode normalizeVec chunks query semantic_index vw tw ↔
      ∃ j, j < chunks.length ∧
        ((1 / 100 : ℚ) < hybridCombined (kwNormScores chunks query)
            (semScoreMap encode normalizeVec semantic_index chunks query) vw tw j ∨
          hasSubstr (lower (chunks.getD j defaultChunk).content) (lower query) = true) ∧
        r = mkHybridSnippet (chunks.getD j defaultChunk) query
              (hybridCombined (kwNormScores chunks query)
                (semScoreMap encode normalizeVec semantic_index chunks query) vw tw j)) ∧
    (∀ c ∈ chunks, hasSubstr (lower c.content) (lower query) = true →
      ∃ r ∈ hybrid_candidates encode normalizeVec chunks query semantic_index vw tw,
        r.full_chunk = c.content) := by
  constructor
  · intro r
    unfold hybrid_candidates
    simpa using mem_hybridLoop query (kwNormScores chunks query)
      (semScoreMap encode normalizeVec semantic_index chunks query) vw tw chunks 0 r
  · intro c hc hsub
    rcases List.mem_iff_get.mp hc with ⟨⟨j, hj⟩, rfl⟩
    have hget : chunks.getD j defaultChunk = chunks.get ⟨j, hj⟩ :=
      getD_eq_getElem_of_lt _ _ hj
    refine ⟨mkHybridSnippet (chunks.getD j defaultChunk) query
        (hybridCombined (kwNormScores chunks query)
          (semScoreMap encode normalizeVec semantic_index chunks query) vw tw j),
      ?_, by rw [hget]; rfl⟩
    unfold hybrid_candidates
    refine (mem_hybridLoop query _ _ vw tw chunks 0 _).mpr ⟨j, hj, ?_, ?_⟩
    · rw [Nat.zero_add]
      right
      rw [hget]
      exact hsub
    · rw [Nat.zero_add]

/-- Witness for C7 at a concrete instance: a chunk containing the query
verbatim is present in the candidate set. -/
theorem c7_hybrid_inclusion_rule_witness :
    ∃ r ∈ hybrid_candidates (fun _ => ([] : List ℚ)) (fun v => v)
        [⟨str "alpha beta", str "(root)", 0, 10, str "a.md"⟩] (str "beta") none
        (7 / 10) (3 / 10),
      r.full_chunk = (⟨str "alpha beta", str "(root)", 0, 10, str "a.md"⟩ : Chunk).content :=
  (c7_hybrid_inclusion_rule (fun _ => []) (fun v => v)
      [⟨str "alpha beta", str "(root)", 0, 10, str "a.md"⟩] (str "beta") none
      (7 / 10) (3 / 10)).2
    ⟨str "alpha beta", str "(root)", 0, 10, str "a.md"⟩
    (List.mem_singleton.mpr rfl) (by decide)

end MdMcp
